import Mathlib

/-!
Shallow embedding of the `cpitd` clone-detection core (the Python sources
`winnowing.py`, `indexer.py`, `reporter.py`, `filter.py`, `config.py`,
`pipeline.py`) together with proofs settling the frozen claims about it.

Python integers are embedded as `Int` (tree levels, which arise from
`range(1, 9)`, as `Nat`), Python lists as `List`, Python `dict`s as
insertion-ordered association lists, and Python's opaque `hash` as explicit
function parameters (`hashT` for `hash(tuple_of_strings)`, `hash2` for
`hash((int, int))`).  Python's stable `sorted` is embedded as
`List.mergeSort` with the corresponding boolean key order.
-/

namespace Cpitd

/-- `Token` from `tokenizer.py`. -/
structure Token where
  value : String
  line : Int
  column : Int
deriving Repr, DecidableEq

/-- `LineHash` from `winnowing.py`. -/
structure LineHash where
  hash_value : Int
  line : Int
  token_count : Int
deriving Repr, DecidableEq

/-- `HashTreeNode` from `winnowing.py`.  `level` comes from the loop
`for lvl in range(1, _MAX_TREE_LEVEL + 1)` and is embedded as `Nat`. -/
structure HashTreeNode where
  hash_value : Int
  start_line : Int
  end_line : Int
  level : Nat
  token_count : Int
deriving Repr, DecidableEq

/-- `NodeLocation` from `indexer.py`. -/
structure NodeLocation where
  file_path : String
  node : HashTreeNode
deriving Repr, DecidableEq

/-- `CloneMatch` from `indexer.py`. -/
structure CloneMatch where
  left : NodeLocation
  right : NodeLocation
  level : Nat
  shared_hash : Int
deriving Repr, DecidableEq

/-- `CloneGroup` from `reporter.py`; `lines_a`/`lines_b` are the
`(start_line, end_line)` tuples. -/
structure CloneGroup where
  file_a : String
  lines_a : Int × Int
  file_b : String
  lines_b : Int × Int
  line_count : Int
  token_count : Int
deriving Repr, DecidableEq

/-- `CloneReport` from `reporter.py`. -/
structure CloneReport where
  file_a : String
  file_b : String
  groups : List CloneGroup
  total_cloned_lines : Int
deriving Repr, DecidableEq

/-! ## `winnowing.py`: line hashing and the fixed-alignment hash tree -/

/-- `_MAX_TREE_LEVEL = 8` from `winnowing.py`. -/
def MAX_TREE_LEVEL : Nat := 8

/-- The distinct `.line` keys of `by_line` (a `defaultdict` keyed by token
line); only their set matters because `hash_lines` sorts the keys. -/
def lineKeys (tokens : List Token) : List Int :=
  (tokens.map (·.line)).dedup

/-- The values appended under one line key of `by_line`, in token order. -/
def lineValues (tokens : List Token) (line : Int) : List String :=
  (tokens.filter (fun t => t.line = line)).map (·.value)

/-- `hash_lines` from `winnowing.py`: one `LineHash` per line that has at
least one token, ordered by line number. -/
def hash_lines (hashT : List String → Int) (tokens : List Token) : List LineHash :=
  ((lineKeys tokens).mergeSort (fun a b => decide (a ≤ b))).map fun line =>
    { hash_value := hashT (lineValues tokens line)
      line := line
      token_count := (lineValues tokens line).length }

/-- One level-0 leaf per `LineHash` (`build_hash_tree`, level 0). -/
def leafNode (lh : LineHash) : HashTreeNode :=
  { hash_value := lh.hash_value
    start_line := lh.line
    end_line := lh.line
    level := 0
    token_count := lh.token_count }

/-- The inner loop `for i in range(0, len(prev) - 1, 2)` of
`build_hash_tree`: pair adjacent nodes at fixed alignment; a trailing
unpaired node is dropped. -/
def pairNodes (hash2 : Int → Int → Int) (lvl : Nat) :
    List HashTreeNode → List HashTreeNode
  | left :: right :: rest =>
      { hash_value := hash2 left.hash_value right.hash_value
        start_line := left.start_line
        end_line := right.end_line
        level := lvl
        token_count := left.token_count + right.token_count }
        :: pairNodes hash2 lvl rest
  | _ => []

/-- The outer loop `for lvl in range(1, _MAX_TREE_LEVEL + 1)` of
`build_hash_tree`: build successive levels from the previous one, stopping
when the previous level has fewer than 2 nodes or the fuel (remaining loop
iterations) runs out. -/
def buildLevels (hash2 : Int → Int → Int) :
    Nat → Nat → List HashTreeNode → List (List HashTreeNode)
  | 0, _, _ => []
  | fuel + 1, lvl, prev =>
      if prev.length < 2 then []
      else
        let current := pairNodes hash2 lvl prev
        current :: buildLevels hash2 fuel (lvl + 1) current

/-- `build_hash_tree` from `winnowing.py`. -/
def build_hash_tree (hash2 : Int → Int → Int) (line_hashes : List LineHash) :
    List (List HashTreeNode) :=
  if line_hashes = [] then []
  else
    let level_0 := line_hashes.map leafNode
    level_0 :: buildLevels hash2 MAX_TREE_LEVEL 1 level_0

/-! ## `indexer.py`: the hash-collision index -/

/-- `_MAX_BUCKET_SIZE = 100` from `indexer.py`. -/
def MAX_BUCKET_SIZE : Nat := 100

/-- The index `dict[int, list[NodeLocation]]`, embedded as an association
list in key-insertion order (Python `dict` iteration order). -/
abbrev Index := List (Int × List NodeLocation)

/-- Appending one location under a hash key (`self._index[h].append(loc)`
on a `defaultdict(list)`): existing key keeps its position, a new key goes
to the end. -/
def indexInsert (idx : Index) (h : Int) (loc : NodeLocation) : Index :=
  match idx with
  | [] => [(h, [loc])]
  | (k, locs) :: rest =>
      if k = h then (k, locs ++ [loc]) :: rest
      else (k, locs) :: indexInsert rest h loc

/-- `LineHashIndex.add`: append every node of every level of a file's tree. -/
def indexAdd (idx : Index) (file_path : String)
    (tree : List (List HashTreeNode)) : Index :=
  tree.foldl
    (fun acc level =>
      level.foldl
        (fun acc2 node => indexInsert acc2 node.hash_value ⟨file_path, node⟩)
        acc)
    idx

/-- `_ranges_overlap` from `indexer.py`. -/
def rangesOverlap (a b : HashTreeNode) : Bool :=
  decide (a.start_line ≤ b.end_line) && decide (b.start_line ≤ a.end_line)

/-- The inner loop `for right in locations[i + 1:]` of `find_clones`,
with its two `continue` guards. -/
def pairMatches (h : Int) (mtc : Int) (left : NodeLocation) :
    List NodeLocation → List CloneMatch
  | [] => []
  | right :: rest =>
      let tail := pairMatches h mtc left rest
      if right.node.token_count < mtc then tail
      else if left.file_path = right.file_path ∧ rangesOverlap left.node right.node then tail
      else ⟨left, right, left.node.level, h⟩ :: tail

/-- The outer loop `for i, left in enumerate(locations)` of `find_clones`,
with its `continue` guard on `left`. -/
def bucketMatches (h : Int) (mtc : Int) : List NodeLocation → List CloneMatch
  | [] => []
  | left :: rest =>
      (if left.node.token_count < mtc then [] else pairMatches h mtc left rest)
        ++ bucketMatches h mtc rest

/-- `LineHashIndex.find_clones`: per bucket, skip buckets of size `< 2` or
`> _MAX_BUCKET_SIZE`, otherwise enumerate the kept pairs. -/
def find_clones (idx : Index) (mtc : Int) : List CloneMatch :=
  idx.flatMap fun p =>
    if p.2.length < 2 ∨ p.2.length > MAX_BUCKET_SIZE then []
    else bucketMatches p.1 mtc p.2

/-! ## `reporter.py`: aggregation of matches into per-file-pair reports -/

/-- Python string comparison `a < b`: lexicographic on code points. -/
def pyCharsLt : List Char → List Char → Bool
  | [], [] => false
  | [], _ :: _ => true
  | _ :: _, [] => false
  | a :: as, b :: bs =>
      if a.toNat < b.toNat then true
      else if b.toNat < a.toNat then false
      else pyCharsLt as bs

/-- Python `a < b` on `str`. -/
def pyStrLt (a b : String) : Bool := pyCharsLt a.toList b.toList

/-- Python `a <= b` on `str`. -/
def pyStrLe (a b : String) : Bool := !pyStrLt b a

/-- `_normalize_file_pair` from `reporter.py`. -/
def normalize_file_pair (file_a file_b : String) : String × String × Bool :=
  if pyStrLe file_a file_b then (file_a, file_b, false) else (file_b, file_a, true)

/-- The walking state of `_merge_consecutive_matches`: the current "open"
group `(cur_a_start, cur_a_end, cur_b_start, cur_b_end, cur_tokens)` and
the file pair. -/
structure MergeState where
  a_start : Int
  a_end : Int
  b_start : Int
  b_end : Int
  tokens : Int
  file_a : String
  file_b : String
deriving Repr, DecidableEq

/-- Closing the open group of `_merge_consecutive_matches` (the
`groups.append(CloneGroup(...))` expression). -/
def closeGroup (st : MergeState) : CloneGroup :=
  { file_a := st.file_a
    lines_a := (st.a_start, st.a_end)
    file_b := st.file_b
    lines_b := (st.b_start, st.b_end)
    line_count := st.a_end - st.a_start + 1
    token_count := st.tokens }

/-- Opening a group at a match (the initialisation of the `cur_*` variables
in `_merge_consecutive_matches`, used both for `sorted_matches[0]` and in
the `else` branch). -/
def openState (m : CloneMatch) : MergeState :=
  { a_start := m.left.node.start_line
    a_end := m.left.node.end_line
    b_start := m.right.node.start_line
    b_end := m.right.node.end_line
    tokens := m.left.node.token_count
    file_a := m.left.file_path
    file_b := m.right.file_path }

/-- The walk `for m in sorted_matches[1:]` of `_merge_consecutive_matches`,
plus the final `groups.append`. -/
def mergeWalk (st : MergeState) : List CloneMatch → List CloneGroup
  | [] => [closeGroup st]
  | m :: rest =>
      let a_line := m.left.node.start_line
      let b_line := m.right.node.start_line
      if a_line = st.a_end + 1 ∧ b_line = st.b_end + 1 then
        mergeWalk
          { st with
              a_end := a_line
              b_end := b_line
              tokens := st.tokens + m.left.node.token_count }
          rest
      else closeGroup st :: mergeWalk (openState m) rest

/-- The sort key of `_merge_consecutive_matches`:
`key=lambda m: (m.left.node.start_line, m.right.node.start_line)`. -/
def matchKeyLe (m n : CloneMatch) : Bool :=
  decide (m.left.node.start_line < n.left.node.start_line ∨
    (m.left.node.start_line = n.left.node.start_line ∧
      m.right.node.start_line ≤ n.right.node.start_line))

/-- `_merge_consecutive_matches` from `reporter.py`. -/
def merge_consecutive_matches (ms : List CloneMatch) : List CloneGroup :=
  match ms.mergeSort matchKeyLe with
  | [] => []
  | m :: rest => mergeWalk (openState m) rest

/-- `_higher_level_to_group` from `reporter.py`. -/
def higher_level_to_group (m : CloneMatch) : CloneGroup :=
  { file_a := m.left.file_path
    lines_a := (m.left.node.start_line, m.left.node.end_line)
    file_b := m.right.file_path
    lines_b := (m.right.node.start_line, m.right.node.end_line)
    line_count := m.left.node.end_line - m.left.node.start_line + 1
    token_count := m.left.node.token_count }

/-- The subsumption test of `_deduplicate_groups`: whether the already-kept
group `k` subsumes the candidate `g` (same file pair, closed-interval
containment on both sides). -/
def subsumes (k g : CloneGroup) : Bool :=
  decide (g.file_a = k.file_a) && decide (g.file_b = k.file_b) &&
    decide (k.lines_a.1 ≤ g.lines_a.1) && decide (g.lines_a.2 ≤ k.lines_a.2) &&
    decide (k.lines_b.1 ≤ g.lines_b.1) && decide (g.lines_b.2 ≤ k.lines_b.2)

/-- The `for g in by_size` loop of `_deduplicate_groups`, accumulating the
`kept` list. -/
def dedupGo (kept : List CloneGroup) : List CloneGroup → List CloneGroup
  | [] => kept
  | g :: rest =>
      if kept.any (fun k => subsumes k g) then dedupGo kept rest
      else dedupGo (kept ++ [g]) rest

/-- `sorted(groups, key=lambda g: g.line_count, reverse=True)`: stable
descending order by `line_count`. -/
def sizeDescLe (g k : CloneGroup) : Bool :=
  decide (k.line_count ≤ g.line_count)

/-- `sorted(kept, key=lambda g: (g.file_a, g.lines_a))`: lexicographic on
the file name and the `lines_a` tuple. -/
def groupKeyLe (g k : CloneGroup) : Bool :=
  pyStrLt g.file_a k.file_a ||
    (decide (g.file_a = k.file_a) &&
      (decide (g.lines_a.1 < k.lines_a.1) ||
        (decide (g.lines_a.1 = k.lines_a.1) && decide (g.lines_a.2 ≤ k.lines_a.2))))

/-- `_deduplicate_groups` from `reporter.py`. -/
def deduplicate_groups (groups : List CloneGroup) : List CloneGroup :=
  (dedupGo [] (groups.mergeSort sizeDescLe)).mergeSort groupKeyLe

/-- The side-canonicalisation of `aggregate_clone_matches`: swap `left` and
`right` when `left.file_path > right.file_path`. -/
def swapIfNeeded (m : CloneMatch) : CloneMatch :=
  let n := normalize_file_pair m.left.file_path m.right.file_path
  if n.2.2 then
    { left := m.right, right := m.left, level := m.level, shared_hash := m.shared_hash }
  else m

/-- The `(fa, fb)` bucket key of a canonicalised match. -/
def pairKey (m : CloneMatch) : String × String :=
  (m.left.file_path, m.right.file_path)

/-- `sorted(by_pair.items())`: lexicographic order on the `(file_a, file_b)`
keys. -/
def pairLe (p q : String × String) : Bool :=
  pyStrLt p.1 q.1 || (decide (p.1 = q.1) && pyStrLe p.2 q.2)

/-- `aggregate_clone_matches` from `reporter.py`.  The `defaultdict` bucket
map is embedded by its sorted key list plus per-key filtering, which agrees
with Python because `sorted(by_pair.items())` forgets insertion order of
the keys and appending preserves per-key match order. -/
def aggregate_clone_matches (rawMatches : List CloneMatch)
    (min_group_tokens : Int) : List CloneReport :=
  let ms := rawMatches.map swapIfNeeded
  let keys := ((ms.map pairKey).dedup).mergeSort pairLe
  keys.filterMap fun key =>
    let pair_matches := ms.filter (fun m => pairKey m = key)
    let level_0 := pair_matches.filter (fun m => m.level = 0)
    let higher := pair_matches.filter (fun m => m.level > 0)
    let rawGroups :=
      merge_consecutive_matches level_0 ++ higher.map higher_level_to_group
    let bigGroups := rawGroups.filter (fun g => g.token_count ≥ min_group_tokens)
    let groups := deduplicate_groups bigGroups
    if groups = [] then none
    else
      some
        { file_a := key.1
          file_b := key.2
          groups := groups
          total_cloned_lines := (groups.map (·.line_count)).sum }

/-! ## `filter.py`: two-pass suppression filter

The foreign pieces — `str.splitlines`, `fnmatch.fnmatch` and the injected
`read_source` callback — are explicit function parameters (`splitLines`,
`fnmatchB`, `readFn`); every theorem below quantifies over them. -/

/-- `Location = (file_path, (start_line, end_line))` from `filter.py`. -/
abbrev Location := String × (Int × Int)

/-- The `ctx.cache` dict (`file_path → text | None`), an association list
in key-insertion order with unique keys. -/
abbrev Cache := List (String × Option String)

/-- A Python index made nonnegative and clamped to `[0, n]`, as slicing
does. -/
def pyIndex (n : Nat) (i : Int) : Nat :=
  if (if i < 0 then i + n else i) < 0 then 0
  else if (if i < 0 then i + n else i) > (n : Int) then n
  else (if i < 0 then i + n else i).toNat

/-- Python list slicing `l[a:b]`. -/
def pySlice {α : Type} (l : List α) (a b : Int) : List α :=
  (l.take (pyIndex l.length b)).drop (pyIndex l.length a)

/-- `_extract_lines` from `filter.py`. -/
def extract_lines (splitLines : String → List String) (source : String)
    (line_range : Int × Int) (context_above : Int) : List String :=
  let lines := splitLines source
  let start := max 1 (line_range.1 - context_above)
  pySlice lines (start - 1) line_range.2

/-- `_location_overlaps` from `filter.py` (the suppressed set is embedded
as a list; only membership matters). -/
def location_overlaps (loc : Location) (suppressed : List Location) : Bool :=
  suppressed.any fun s =>
    decide (s.1 = loc.1) && decide (loc.2.1 ≤ s.2.2) && decide (s.2.1 ≤ loc.2.2)

/-- `_filter_groups` from `filter.py` for a pure `keep` predicate (used
directly by `SiblingStage`). -/
def filter_groups (reports : List CloneReport) (keep : CloneGroup → Bool) :
    List CloneReport :=
  reports.filterMap fun r =>
    if r.groups.filter keep = [] then none
    else
      some
        { file_a := r.file_a
          file_b := r.file_b
          groups := r.groups.filter keep
          total_cloned_lines := ((r.groups.filter keep).map (·.line_count)).sum }

/-- Dict lookup in the cache. -/
def cacheLookup (cache : Cache) (fp : String) : Option (Option String) :=
  match cache with
  | [] => none
  | (k, v) :: rest => if k = fp then some v else cacheLookup rest fp

/-- The `if file_path not in ctx.cache: ctx.cache[file_path] = read_fn(...)`
then `source = ctx.cache[file_path]` steps of `PatternMatchStage`. -/
def readCached (readFn : String → Option String) (cache : Cache)
    (fp : String) : Option String × Cache :=
  match cacheLookup cache fp with
  | some v => (v, cache)
  | none => (readFn fp, cache ++ [(fp, readFn fp)])

/-- `any(fnmatch(line, pat) for pat in patterns)`. -/
def lineMatchesAny (fnmatchB : String → String → Bool) (patterns : List String)
    (line : String) : Bool :=
  patterns.any fun pat => fnmatchB line pat

/-- One side of `PatternMatchStage._group_matches`: absent source never
matches, otherwise any extracted line (with one line of context above)
matching any pattern does. -/
def sideMatches (fnmatchB : String → String → Bool)
    (splitLines : String → List String) (patterns : List String)
    (source : Option String) (lr : Int × Int) : Bool :=
  match source with
  | none => false
  | some s => (extract_lines splitLines s lr 1).any (lineMatchesAny fnmatchB patterns)

/-- `PatternMatchStage._group_matches`, threading the read cache; the two
sides are tried in order with an early `return True`. -/
def group_matches (fnmatchB : String → String → Bool)
    (splitLines : String → List String) (readFn : String → Option String)
    (patterns : List String) (g : CloneGroup) (cache : Cache) :
    Bool × Cache :=
  if sideMatches fnmatchB splitLines patterns
      (readCached readFn cache g.file_a).1 g.lines_a then
    (true, (readCached readFn cache g.file_a).2)
  else
    (sideMatches fnmatchB splitLines patterns
      (readCached readFn (readCached readFn cache g.file_a).2 g.file_b).1 g.lines_b,
     (readCached readFn (readCached readFn cache g.file_a).2 g.file_b).2)

/-- The mutable state seen by the `keep` closure of
`PatternMatchStage.__call__`: the shared read cache and the local
`suppressed` set. -/
structure Stage1State where
  cache : Cache
  suppressed : List Location
deriving Repr, DecidableEq

/-- Set insertion for the suppressed-locations set. -/
def locInsert (s : List Location) (loc : Location) : List Location :=
  if loc ∈ s then s else s ++ [loc]

/-- The `[g for g in report.groups if keep(g)]` comprehension of
`_filter_groups` with the stateful `keep` of `PatternMatchStage.__call__`:
a matching group is dropped and its two locations recorded. -/
def stage1Groups (fnmatchB : String → String → Bool)
    (splitLines : String → List String) (readFn : String → Option String)
    (patterns : List String) :
    List CloneGroup → Stage1State → List CloneGroup × Stage1State
  | [], st => ([], st)
  | g :: rest, st =>
      if (group_matches fnmatchB splitLines readFn patterns g st.cache).1 then
        stage1Groups fnmatchB splitLines readFn patterns rest
          { cache := (group_matches fnmatchB splitLines readFn patterns g st.cache).2
            suppressed :=
              locInsert (locInsert st.suppressed (g.file_a, g.lines_a))
                (g.file_b, g.lines_b) }
      else
        (g :: (stage1Groups fnmatchB splitLines readFn patterns rest
            { cache := (group_matches fnmatchB splitLines readFn patterns g st.cache).2
              suppressed := st.suppressed }).1,
         (stage1Groups fnmatchB splitLines readFn patterns rest
            { cache := (group_matches fnmatchB splitLines readFn patterns g st.cache).2
              suppressed := st.suppressed }).2)

/-- The report loop of `_filter_groups` under the stateful `keep` of
`PatternMatchStage.__call__`: empty reports are dropped and
`total_cloned_lines` recomputed. -/
def stage1Reports (fnmatchB : String → String → Bool)
    (splitLines : String → List String) (readFn : String → Option String)
    (patterns : List String) :
    List CloneReport → Stage1State → List CloneReport × Stage1State
  | [], st => ([], st)
  | r :: rest, st =>
      if (stage1Groups fnmatchB splitLines readFn patterns r.groups st).1 = [] then
        stage1Reports fnmatchB splitLines readFn patterns rest
          (stage1Groups fnmatchB splitLines readFn patterns r.groups st).2
      else
        ({ file_a := r.file_a
           file_b := r.file_b
           groups := (stage1Groups fnmatchB splitLines readFn patterns r.groups st).1
           total_cloned_lines :=
             (((stage1Groups fnmatchB splitLines readFn patterns
                 r.groups st).1).map (·.line_count)).sum } ::
           (stage1Reports fnmatchB splitLines readFn patterns rest
             (stage1Groups fnmatchB splitLines readFn patterns r.groups st).2).1,
         (stage1Reports fnmatchB splitLines readFn patterns rest
           (stage1Groups fnmatchB splitLines readFn patterns r.groups st).2).2)

/-- `FilterContext` from `filter.py` (without the injected `read_fn`, which
is a parameter of every function here). -/
structure FilterContext where
  cache : Cache
  suppressed_locations : List Location
deriving Repr, DecidableEq

/-- `PatternMatchStage.__call__`: run the stateful group filter with a fresh
local `suppressed` set, then union it into `ctx.suppressed_locations`. -/
def pattern_stage (fnmatchB : String → String → Bool)
    (splitLines : String → List String) (readFn : String → Option String)
    (patterns : List String) (reports : List CloneReport)
    (ctx : FilterContext) : List CloneReport × FilterContext :=
  ((stage1Reports fnmatchB splitLines readFn patterns reports
      { cache := ctx.cache, suppressed := [] }).1,
   { cache := (stage1Reports fnmatchB splitLines readFn patterns reports
       { cache := ctx.cache, suppressed := [] }).2.cache
     suppressed_locations :=
       ((stage1Reports fnmatchB splitLines readFn patterns reports
         { cache := ctx.cache, suppressed := [] }).2.suppressed).foldl
         locInsert ctx.suppressed_locations })

/-- `SiblingStage.__call__`: drop groups both of whose sides overlap a
suppressed location. -/
def sibling_stage (reports : List CloneReport) (ctx : FilterContext) :
    List CloneReport × FilterContext :=
  (filter_groups reports fun g =>
      !(location_overlaps (g.file_a, g.lines_a) ctx.suppressed_locations &&
        location_overlaps (g.file_b, g.lines_b) ctx.suppressed_locations),
   ctx)

/-- `filter_reports` from `filter.py`: identity on an empty pattern tuple,
otherwise `run_filters` with `PatternMatchStage` then `SiblingStage` on a
fresh `FilterContext`. -/
def filter_reports (fnmatchB : String → String → Bool)
    (splitLines : String → List String) (readFn : String → Option String)
    (reports : List CloneReport) (patterns : List String) :
    List CloneReport :=
  if patterns = [] then reports
  else
    (sibling_stage
      (pattern_stage fnmatchB splitLines readFn patterns reports
        { cache := [], suppressed_locations := [] }).1
      (pattern_stage fnmatchB splitLines readFn patterns reports
        { cache := [], suppressed_locations := [] }).2).1

/-! ## `config.py` and `pipeline.py`: the `Config` slots and the
`scan` attribute access -/

/-- The slot fields of `Config` (`config.py` lines 13–21).  `Config` is a
`@dataclass(frozen=True, slots=True)`, so these are exactly the attribute
names an instance admits. -/
def configFields : List String :=
  ["min_tokens", "normalize", "output_format", "ignore_patterns", "languages"]

/-- Attribute access on a `Config` instance: with `slots=True` and no such
slot, Python raises `AttributeError`. -/
def configGetattr (name : String) : Except String Unit :=
  if name ∈ configFields then Except.ok ()
  else Except.error ("AttributeError: " ++ name)

/-- The attribute lookup `config.suppress_patterns` that `scan`
(`pipeline.py` line 53) performs on every run, after aggregation and before
returning. -/
def scanSuppressAccess : Except String Unit :=
  configGetattr "suppress_patterns"

/-! ## Concrete instantiations

Python's built-in `hash` is opaque; the concrete scenarios below instantiate
the hash parameters with explicit injective-on-the-relevant-domain
functions so that the pipeline can be evaluated. -/

/-- A base-256 code of a string's characters. -/
def strCode (s : String) : Int :=
  s.toList.foldl (fun a c => a * 256 + (c.toNat : Int)) 0

/-- A concrete stand-in for `hash(tuple_of_strings)`. -/
def demoHashT : List String → Int :=
  fun vs => vs.foldl (fun a s => a * 1000003 + strCode s) 1

/-- A concrete stand-in for `hash((int, int))`. -/
def demoHash2 : Int → Int → Int :=
  fun a b => a * 1000003 + b + 7

/-- §8 scenario 1: the token stream `a b c d e f g h`, one token per line. -/
def c3Tokens : List Token :=
  (["a", "b", "c", "d", "e", "f", "g", "h"].enum).map fun p =>
    { value := p.2, line := (p.1 : Int) + 1, column := 0 }

/-- The collision index after adding the two §8-scenario-1 files. -/
def c3Index : Index :=
  let tree := build_hash_tree demoHash2 (hash_lines demoHashT c3Tokens)
  indexAdd (indexAdd [] "a.py" tree) "b.py" tree

/-- The §8-scenario-1 engine run at thresholds `(min_token_count,
min_group_tokens)`. -/
def c3Reports (mtc mgt : Int) : List CloneReport :=
  aggregate_clone_matches (find_clones c3Index mtc) mgt

/-- Ten identical tokens `v` on one source line. -/
def tenTokens (v : String) (line : Int) : List Token :=
  (List.range 10).map fun i => { value := v, line := line, column := (i : Int) }

/-- File A of the C4 scenario: content-identical lines at 1 and 2. -/
def c4TokensA : List Token := tenTokens "u" 1 ++ tenTokens "v" 2

/-- File B of the C4 scenario: the same two lines' contents at lines 5 and
7 — a one-line gap (e.g. a blank or comment-only line 6). -/
def c4TokensB : List Token := tenTokens "u" 5 ++ tenTokens "v" 7

/-- The collision index for the C4 gap-line scenario. -/
def c4Index : Index :=
  indexAdd
    (indexAdd [] "a.py" (build_hash_tree demoHash2 (hash_lines demoHashT c4TokensA)))
    "b.py" (build_hash_tree demoHash2 (hash_lines demoHashT c4TokensB))

/-- The C4 scenario run at the engine's default thresholds. -/
def c4Reports : List CloneReport :=
  aggregate_clone_matches (find_clones c4Index 10) 10

/-- §8 scenario 4: 101 files, each a single line holding the one token `X`. -/
def c5Index : Index :=
  (List.range 101).foldl
    (fun idx i =>
      indexAdd idx ("f" ++ toString i)
        (build_hash_tree demoHash2
          (hash_lines demoHashT [{ value := "X", line := 1, column := 0 }])))
    []

/-- A group of the pair `a.py`/`b.py` whose `lines_b` sit strictly inside
those of `c8k` while `lines_a` coincide. -/
def c8g : CloneGroup := ⟨"a.py", (1, 4), "b.py", (2, 3), 4, 12⟩

/-- A group containing `c8g` on both sides (equal on side a, strictly
larger on side b), with the same `line_count`. -/
def c8k : CloneGroup := ⟨"a.py", (1, 4), "b.py", (1, 4), 4, 12⟩

/-- A node location for hand-built matches. -/
def mkLoc (fp : String) (s e : Int) (lvl : Nat) (tc : Int) : NodeLocation :=
  ⟨fp, ⟨99, s, e, lvl, tc⟩⟩

/-- A level-0 match of line `i` of `a.py` against line `i` of `b.py`. -/
def c8lvl0 (i : Int) : CloneMatch :=
  ⟨mkLoc "a.py" i i 0 3, mkLoc "b.py" i i 0 3, 0, 11⟩

/-- A level-2 match of lines 1–4 of `a.py` against lines 1–4 of `b.py`. -/
def c8lvl2 : CloneMatch :=
  ⟨mkLoc "a.py" 1 4 2 12, mkLoc "b.py" 1 4 2 12, 2, 22⟩

/-- §8 scenario 3's matches: four coalescible level-0 matches plus the
level-2 match covering the same four lines. -/
def c8ExampleMatches : List CloneMatch :=
  [c8lvl0 1, c8lvl0 2, c8lvl0 3, c8lvl0 4, c8lvl2]

/-! ## C1 -/

/-- C1: the claim is right and the code is wrong.  The spec gives `Config`
an optional `suppress_patterns` field (default `[]`) and promises that no
exception escapes `scan`, and the repository's own tests construct
`Config(suppress_patterns=...)`; but `Config` in `config.py` declares no
such slot, so the access `config.suppress_patterns` that `scan` performs on
line 53 of `pipeline.py` raises `AttributeError` on every configuration. -/
theorem C1_scan_attribute_error :
    scanSuppressAccess = Except.error "AttributeError: suppress_patterns" := rfl

/-! ## C2 -/

/-- C2 counterexample: `hash_lines` emits line hashes only for non-empty
lines, so `build_hash_tree` can receive leaves at lines 1 and 3; their
level-1 parent spans `3 − 1 + 1 = 3 > 2 = 2^1` lines, refuting the claimed
invariant for arbitrary input line-hash lists. -/
theorem C2_counterexample :
    ∃ level ∈ build_hash_tree demoHash2 [⟨0, 1, 1⟩, ⟨0, 3, 1⟩],
      ∃ n ∈ level, ¬(n.end_line - n.start_line + 1 ≤ 2 ^ n.level) := by
  decide

/-! ## C3 -/

unseal List.merge List.mergeSort in
/-- C3 counterexample: at the engine's stated defaults
(`min_token_count = 10`, `min_group_tokens = 10`) the §8-scenario-1 pair of
8-line one-token-per-line files yields zero reports, not one: every tree
node of either file carries at most 8 tokens, below the default threshold. -/
theorem C3_default_thresholds_counterexample : c3Reports 10 10 = [] := by
  decide

unseal List.merge List.mergeSort in
/-- C3 (amended): the §8-scenario-1 expectation holds once the thresholds
admit the 8-token files — with `min_token_count = 1` and
`min_group_tokens = 1` (and a collision-free hash) the run yields exactly
one report holding exactly one group with `lines_a = lines_b = (1, 8)` and
`line_count = 8`. -/
theorem C3_amended_scenario :
    c3Reports 1 1 =
      [{ file_a := "a.py"
         file_b := "b.py"
         groups :=
           [{ file_a := "a.py"
              lines_a := (1, 8)
              file_b := "b.py"
              lines_b := (1, 8)
              line_count := 8
              token_count := 8 }]
         total_cloned_lines := 8 }] := by
  decide

/-! ## C4 -/

unseal List.merge List.mergeSort in
/-- C4 counterexample: a full default-threshold pipeline run on two files
whose identical two-line contents sit at lines 1–2 of `a.py` but at lines 5
and 7 of `b.py` (gap at line 6) emits a group with `lines_b = (5, 7)` —
three lines on side b — while `line_count = 2`, refuting the claimed
two-sided span equality. -/
theorem C4_counterexample :
    ∃ r ∈ c4Reports, ∃ g ∈ r.groups,
      ¬(g.lines_b.2 - g.lines_b.1 + 1 = g.line_count) := by
  decide

/-! ## C8 counterexample -/

unseal List.merge List.mergeSort in
/-- C8 counterexample: deduplication does not remove *every* group
contained in a kept group.  `c8g` is contained (both sides) in the kept
group `c8k` of the same file pair, yet both survive: the two groups have
equal `line_count`, `c8g` is processed first in the stable size-descending
order, and `c8k` is not contained in `c8g`. -/
theorem C8_counterexample_kept_containment :
    deduplicate_groups [c8g, c8k] = [c8g, c8k] ∧
      subsumes c8k c8g = true ∧ c8g ≠ c8k := by
  decide

/-! ## C5: the bucket-size filter -/

/-- The claim's bucket admission predicate: size 2 through 100 inclusive. -/
def bucketSizeOK (locs : List NodeLocation) : Bool :=
  decide (2 ≤ locs.length) && decide (locs.length ≤ MAX_BUCKET_SIZE)

set_option maxRecDepth 10000 in
unseal List.merge List.mergeSort in
/-- C5: `find_clones` considers pairs only from buckets of size 2 through
100 inclusive — it equals the per-bucket pair enumeration restricted to the
buckets passing that size test — and §8 scenario 4 (101 single-token files
sharing one hash, bucket size 101) yields zero matches and zero reports. -/
theorem C5_bucket_filter :
    (∀ (idx : Index) (mtc : Int),
        find_clones idx mtc =
          (idx.filter fun p => bucketSizeOK p.2).flatMap
            fun p => bucketMatches p.1 mtc p.2) ∧
      find_clones c5Index 10 = [] ∧
      aggregate_clone_matches (find_clones c5Index 10) 10 = [] := by
  refine ⟨fun idx mtc => ?_, by decide, by decide⟩
  induction idx with
  | nil => rfl
  | cons p rest ih =>
      by_cases h : p.2.length < 2 ∨ p.2.length > MAX_BUCKET_SIZE
      · have hb : bucketSizeOK p.2 = false := by
          simp only [bucketSizeOK, Bool.and_eq_false_iff, decide_eq_false_iff_not,
            not_le]
          omega
        simp [find_clones, List.filter_cons, hb, h] at ih ⊢
        exact ih
      · have hb : bucketSizeOK p.2 = true := by
          simp only [bucketSizeOK, Bool.and_eq_true, decide_eq_true_eq]
          omega
        simp [find_clones, List.filter_cons, hb, h] at ih ⊢
        exact ih

/-! ## C6: pair enumeration and filtering inside a surviving bucket -/

/-- From the claim's words: the enumerated pairs `(left, right)` with
`left` preceding `right` in insertion order. -/
def orderedPairsSpec : List NodeLocation → List (NodeLocation × NodeLocation)
  | [] => []
  | l :: rest => rest.map (fun r => (l, r)) ++ orderedPairsSpec rest

/-- From the claim's words: a pair is kept iff both token counts reach
`min_token_count` and it is not a same-file pair with overlapping
`[start_line, end_line]` ranges. -/
def keepPairSpec (mtc : Int) (l r : NodeLocation) : Bool :=
  decide (mtc ≤ l.node.token_count) && decide (mtc ≤ r.node.token_count) &&
    !(decide (l.file_path = r.file_path) &&
      decide (l.node.start_line ≤ r.node.end_line) &&
      decide (r.node.start_line ≤ l.node.end_line))

/-- The emitted match of a kept pair. -/
def mkMatchSpec (h : Int) (p : NodeLocation × NodeLocation) : CloneMatch :=
  ⟨p.1, p.2, p.1.node.level, h⟩

theorem pairMatches_eq_spec (h mtc : Int) (left : NodeLocation)
    (hl : ¬left.node.token_count < mtc) (rest : List NodeLocation) :
    pairMatches h mtc left rest =
      ((rest.map fun r => (left, r)).filterMap fun p =>
        if keepPairSpec mtc p.1 p.2 then some (mkMatchSpec h p) else none) := by
  induction rest with
  | nil => rfl
  | cons right rest ih =>
      simp only [pairMatches, List.map_cons, List.filterMap_cons]
      by_cases h1 : right.node.token_count < mtc
      · have hk : keepPairSpec mtc left right = false := by
          simp only [keepPairSpec, Bool.and_eq_false_iff, decide_eq_false_iff_not,
            not_le]
          omega
        simp [h1, hk, ih]
      · by_cases h2 :
          left.file_path = right.file_path ∧ rangesOverlap left.node right.node
        · have hk : keepPairSpec mtc left right = false := by
            have hf := h2.1
            have ho := h2.2
            simp only [rangesOverlap, Bool.and_eq_true, decide_eq_true_eq] at ho
            unfold keepPairSpec
            rw [Bool.and_eq_false_iff]
            right
            rw [Bool.not_eq_false']
            rw [Bool.and_eq_true, Bool.and_eq_true]
            exact ⟨⟨decide_eq_true hf, decide_eq_true ho.1⟩, decide_eq_true ho.2⟩
          simp [h1, h2, hk, ih]
        · have hk : keepPairSpec mtc left right = true := by
            unfold keepPairSpec
            rw [Bool.and_eq_true, Bool.and_eq_true, Bool.not_eq_true',
              Bool.and_eq_false_iff, Bool.and_eq_false_iff]
            refine ⟨⟨decide_eq_true (by omega), decide_eq_true (by omega)⟩, ?_⟩
            by_cases hf : left.file_path = right.file_path
            · have ho : rangesOverlap left.node right.node = false := by
                by_cases hb : rangesOverlap left.node right.node = true
                · exact absurd ⟨hf, hb⟩ h2
                · simpa using hb
              unfold rangesOverlap at ho
              rw [Bool.and_eq_false_iff] at ho
              rcases ho with ho | ho
              · exact Or.inl (Or.inr ho)
              · exact Or.inr ho
            · exact Or.inl (Or.inl (decide_eq_false hf))
          simp [h1, h2, hk, ih, mkMatchSpec]

theorem pairMatches_small_left (h mtc : Int) (left : NodeLocation)
    (hl : left.node.token_count < mtc) (rest : List NodeLocation) :
    ((rest.map fun r => (left, r)).filterMap fun p =>
      if keepPairSpec mtc p.1 p.2 then some (mkMatchSpec h p) else none) = [] := by
  induction rest with
  | nil => rfl
  | cons right rest ih =>
      have hk : keepPairSpec mtc left right = false := by
        simp only [keepPairSpec, Bool.and_eq_false_iff, decide_eq_false_iff_not,
          not_le]
        omega
      simp [hk, ih]

/-- C6: inside a bucket, `find_clones` emits exactly the insertion-ordered
pairs whose two nodes meet the token threshold and which are not
overlapping same-file pairs, each as a `CloneMatch` carrying the left
node's level and the shared hash. -/
theorem C6_pair_enumeration (h mtc : Int) (locs : List NodeLocation) :
    bucketMatches h mtc locs =
      ((orderedPairsSpec locs).filterMap fun p =>
        if keepPairSpec mtc p.1 p.2 then some (mkMatchSpec h p) else none) := by
  induction locs with
  | nil => rfl
  | cons left rest ih =>
      simp only [bucketMatches, orderedPairsSpec, List.filterMap_append]
      by_cases hl : left.node.token_count < mtc
      · simp [hl, pairMatches_small_left h mtc left hl rest, ih]
      · simp [hl, pairMatches_eq_spec h mtc left hl rest, ih]

/-! ## C2 (amended): the span invariant on aligned trees -/

/-- `pairNodes` keeps alignment: from a level-`lvl` list of nodes that each
span exactly `2^lvl` lines and abut one another, it produces level-`lvl+1`
nodes spanning exactly `2^(lvl+1)` lines that again abut one another, and
it preserves the start line of the head. -/
theorem pairNodes_aligned (hash2 : Int → Int → Int) (lvl : Nat) :
    ∀ ns : List HashTreeNode,
      (∀ n ∈ ns, n.level = lvl ∧ n.end_line = n.start_line + (2 : Int) ^ lvl - 1) →
      List.Chain' (fun a b => b.start_line = a.end_line + 1) ns →
      (∀ n ∈ pairNodes hash2 (lvl + 1) ns,
          n.level = lvl + 1 ∧ n.end_line = n.start_line + (2 : Int) ^ (lvl + 1) - 1) ∧
        List.Chain' (fun a b => b.start_line = a.end_line + 1)
          (pairNodes hash2 (lvl + 1) ns) ∧
        (∀ x ∈ ns.head?, ∀ y ∈ (pairNodes hash2 (lvl + 1) ns).head?,
          y.start_line = x.start_line) := by
  intro ns
  induction ns using pairNodes.induct hash2 (lvl + 1) with
  | case1 l r rest ih =>
      intro hspan hchain
      have hlr : r.start_line = l.end_line + 1 := (List.chain'_cons.mp hchain).1
      have hchain_r : List.Chain' (fun a b => b.start_line = a.end_line + 1) (r :: rest) :=
        (List.chain'_cons.mp hchain).2
      have hchain_rest : List.Chain' (fun a b => b.start_line = a.end_line + 1) rest :=
        hchain_r.tail
      have hspan_rest : ∀ n ∈ rest,
          n.level = lvl ∧ n.end_line = n.start_line + (2 : Int) ^ lvl - 1 :=
        fun n hn => hspan n (by simp [hn])
      obtain ⟨ih1, ih2, ih3⟩ := ih hspan_rest hchain_rest
      have hl := hspan l (by simp)
      have hr := hspan r (by simp)
      have hpair_span :
          (l.start_line + (2 : Int) ^ lvl - 1) + 1 + (2 : Int) ^ lvl - 1 =
            l.start_line + (2 : Int) ^ (lvl + 1) - 1 := by
        rw [pow_succ]
        ring
      refine ⟨?_, ?_, ?_⟩
      · intro n hn
        simp only [pairNodes, List.mem_cons] at hn
        rcases hn with hn | hn
        · subst hn
          refine ⟨rfl, ?_⟩
          simp only
          rw [hr.2, hlr, hl.2, hpair_span]
        · exact ih1 n hn
      · rw [pairNodes, List.chain'_cons']
        refine ⟨?_, ih2⟩
        intro y hy
        rcases rest with _ | ⟨a, rest'⟩
        · simp [pairNodes] at hy
        · have ha : a.start_line = r.end_line + 1 := (List.chain'_cons.mp hchain_r).1
          have := ih3 a (by simp) y hy
          simp only
          rw [this, ha]
      · intro x hx y hy
        simp only [List.head?_cons, Option.mem_some_iff] at hx
        rw [pairNodes] at hy
        simp only [List.head?_cons, Option.mem_some_iff] at hy
        subst hx
        subst hy
        rfl
  | case2 t h =>
      intro _ _
      have hempty : pairNodes hash2 (lvl + 1) t = [] := by
        match t, h with
        | [], _ => rfl
        | [x], _ => rfl
        | l :: r :: rest, h => exact (h l r rest rfl).elim
      exact ⟨by simp [hempty], by simp [hempty], by simp [hempty]⟩

/-- Every node of every level that `buildLevels` produces from an aligned
level-`lvl` seed spans exactly `2^level` lines, at a level at most
`lvl + fuel`. -/
theorem buildLevels_aligned (hash2 : Int → Int → Int) :
    ∀ (fuel lvl : Nat) (prev : List HashTreeNode),
      (∀ n ∈ prev, n.level = lvl ∧ n.end_line = n.start_line + (2 : Int) ^ lvl - 1) →
      List.Chain' (fun a b => b.start_line = a.end_line + 1) prev →
      ∀ l ∈ buildLevels hash2 fuel (lvl + 1) prev, ∀ n ∈ l,
        n.end_line - n.start_line + 1 = (2 : Int) ^ n.level ∧ n.level ≤ lvl + fuel := by
  intro fuel
  induction fuel with
  | zero => intro lvl prev _ _ l hl; simp [buildLevels] at hl
  | succ fuel ih =>
      intro lvl prev hspan hchain l hl n hn
      rw [buildLevels] at hl
      by_cases hlen : prev.length < 2
      · simp [hlen] at hl
      · simp only [hlen, if_false, List.mem_cons] at hl
        obtain ⟨hcur1, hcur2, _⟩ := pairNodes_aligned hash2 lvl prev hspan hchain
        rcases hl with hl | hl
        · subst hl
          obtain ⟨hlev, hsp⟩ := hcur1 n hn
          constructor
          · rw [hlev, hsp]; ring
          · omega
        · have := ih (lvl + 1) (pairNodes hash2 (lvl + 1) prev) hcur1 hcur2 l hl n hn
          exact ⟨this.1, by omega⟩

/-- C2 (amended): for line-hash inputs covering consecutive source lines
(each successive line hash at the previous line plus one — no blank or
comment-only gaps), every node of `build_hash_tree` satisfies
`end_line − start_line + 1 ≤ 2^level` and `2^level ≤ 256`.  (The C2
counterexample shows the first bound fails for inputs with line gaps.) -/
theorem C2_span_invariant (hash2 : Int → Int → Int) (lhs : List LineHash)
    (hcons : List.Chain' (fun a b => b.line = a.line + 1) lhs) :
    ∀ level ∈ build_hash_tree hash2 lhs, ∀ n ∈ level,
      n.end_line - n.start_line + 1 ≤ (2 : Int) ^ n.level ∧
        (2 : Int) ^ n.level ≤ 256 := by
  intro level hlevel n hn
  rw [build_hash_tree] at hlevel
  by_cases hnil : lhs = []
  · simp [hnil] at hlevel
  · simp only [hnil, if_false, List.mem_cons] at hlevel
    have hleaf_span : ∀ m ∈ lhs.map leafNode,
        m.level = 0 ∧ m.end_line = m.start_line + (2 : Int) ^ 0 - 1 := by
      intro m hm
      simp only [List.mem_map] at hm
      obtain ⟨lh, _, rfl⟩ := hm
      simp [leafNode]
    have hleaf_chain :
        List.Chain' (fun a b => b.start_line = a.end_line + 1) (lhs.map leafNode) := by
      rw [List.chain'_map]
      exact hcons.imp fun a b h => by simp [leafNode, h]
    have hbound : ∀ m : HashTreeNode, m.level ≤ MAX_TREE_LEVEL →
        (2 : Int) ^ m.level ≤ 256 := by
      intro m hm
      calc (2 : Int) ^ m.level ≤ (2 : Int) ^ MAX_TREE_LEVEL :=
            pow_le_pow_right₀ one_le_two hm
        _ = 256 := by decide
    rcases hlevel with hlevel | hlevel
    · subst hlevel
      obtain ⟨hlev, hsp⟩ := hleaf_span n hn
      refine ⟨by rw [hlev, hsp]; simp, hbound n (by rw [hlev]; exact Nat.zero_le _)⟩
    · have := buildLevels_aligned hash2 MAX_TREE_LEVEL 0 (lhs.map leafNode)
        hleaf_span hleaf_chain level hlevel n hn
      exact ⟨le_of_eq this.1, hbound n this.2⟩

/-- Witness input for C2: two line hashes at consecutive lines 1 and 2. -/
def c2wInput : List LineHash := [⟨5, 1, 2⟩, ⟨6, 2, 2⟩]

/-- The level-1 row of the witness tree. -/
def c2wLevel : List HashTreeNode := [⟨demoHash2 5 6, 1, 2, 1, 4⟩]

/-- The level-1 node of the witness tree. -/
def c2wNode : HashTreeNode := ⟨demoHash2 5 6, 1, 2, 1, 4⟩

/-- Witness for C2's amended invariant at a concrete consecutive-line
input. -/
theorem C2_span_witness :
    c2wNode.end_line - c2wNode.start_line + 1 ≤ (2 : Int) ^ c2wNode.level ∧
      (2 : Int) ^ c2wNode.level ≤ 256 :=
  C2_span_invariant demoHash2 c2wInput
    (by simp only [c2wInput]; exact List.chain'_pair.mpr (by decide))
    c2wLevel (by decide) c2wNode (by decide)

/-! ## Structural lemmas on aggregation, shared by several claims -/

/-- Every group closed by the merge walk records `line_count` as the span
of its `lines_a` range (by construction of `closeGroup`). -/
theorem mergeWalk_line_count (st : MergeState) (ms : List CloneMatch) :
    ∀ g ∈ mergeWalk st ms, g.line_count = g.lines_a.2 - g.lines_a.1 + 1 := by
  induction ms generalizing st with
  | nil => intro g hg; simp only [mergeWalk, List.mem_singleton] at hg; subst hg; rfl
  | cons m rest ih =>
      intro g hg
      rw [mergeWalk] at hg
      by_cases hc : m.left.node.start_line = st.a_end + 1 ∧
          m.right.node.start_line = st.b_end + 1
      · simp only [hc, if_true] at hg
        exact ih _ g hg
      · simp only [hc, if_false, List.mem_cons] at hg
        rcases hg with hg | hg
        · subst hg; rfl
        · exact ih _ g hg

/-- A member of `dedupGo kept gs` came from `kept` or from `gs`. -/
theorem mem_dedupGo (gs : List CloneGroup) :
    ∀ kept x, x ∈ dedupGo kept gs → x ∈ kept ∨ x ∈ gs := by
  induction gs with
  | nil => intro kept x hx; exact Or.inl hx
  | cons g rest ih =>
      intro kept x hx
      rw [dedupGo] at hx
      by_cases hs : kept.any (fun k => subsumes k g)
      · simp only [hs, if_true] at hx
        rcases ih kept x hx with h | h
        · exact Or.inl h
        · exact Or.inr (List.mem_cons_of_mem g h)
      · simp only [hs, if_false] at hx
        rcases ih (kept ++ [g]) x hx with h | h
        · rcases List.mem_append.mp h with h | h
          · exact Or.inl h
          · exact Or.inr (by simp at h; simp [h])
        · exact Or.inr (List.mem_cons_of_mem g h)

/-- Deduplication only drops groups: its output is contained in its input. -/
theorem mem_of_mem_deduplicate {gs : List CloneGroup} {g : CloneGroup}
    (hg : g ∈ deduplicate_groups gs) : g ∈ gs := by
  rw [deduplicate_groups] at hg
  have hg1 := (List.mergeSort_perm (dedupGo [] (gs.mergeSort sizeDescLe)) groupKeyLe).mem_iff.mp hg
  rcases mem_dedupGo _ [] g hg1 with h | h
  · simp at h
  · exact (List.mergeSort_perm gs sizeDescLe).mem_iff.mp h

/-- Unfolding of membership in an `aggregate_clone_matches` report: the
report's groups are the deduplicated, token-filtered groups of one
canonical file pair's matches. -/
theorem aggregate_report_groups (raw : List CloneMatch) (mgt : Int)
    (r : CloneReport) (hr : r ∈ aggregate_clone_matches raw mgt) :
    ∃ key : String × String,
      r.groups =
        deduplicate_groups
          ((merge_consecutive_matches
              (((raw.map swapIfNeeded).filter fun m => pairKey m = key).filter
                fun m => m.level = 0) ++
            ((((raw.map swapIfNeeded).filter fun m => pairKey m = key).filter
                fun m => m.level > 0).map higher_level_to_group)).filter
            fun g => g.token_count ≥ mgt) := by
  simp only [aggregate_clone_matches, List.mem_filterMap] at hr
  obtain ⟨key, _, hfr⟩ := hr
  refine ⟨key, ?_⟩
  by_cases hempty :
      deduplicate_groups
        ((merge_consecutive_matches
            (((raw.map swapIfNeeded).filter fun m => pairKey m = key).filter
              fun m => m.level = 0) ++
          ((((raw.map swapIfNeeded).filter fun m => pairKey m = key).filter
              fun m => m.level > 0).map higher_level_to_group)).filter
          fun g => g.token_count ≥ mgt) = []
  · rw [if_pos hempty] at hfr
    exact absurd hfr (by simp)
  · rw [if_neg hempty] at hfr
    rw [← Option.some_inj.mp hfr]

/-- Every group of every aggregated report satisfies the first C4 equation
`line_count = lines_a.end − lines_a.start + 1`, with no hypothesis on the
input matches. -/
theorem aggregate_line_count (raw : List CloneMatch) (mgt : Int) :
    ∀ r ∈ aggregate_clone_matches raw mgt, ∀ g ∈ r.groups,
      g.line_count = g.lines_a.2 - g.lines_a.1 + 1 := by
  intro r hr g hg
  obtain ⟨key, hkey⟩ := aggregate_report_groups raw mgt r hr
  rw [hkey] at hg
  have hg1 := List.mem_filter.mp (mem_of_mem_deduplicate hg)
  rcases List.mem_append.mp hg1.1 with h | h
  · rw [merge_consecutive_matches] at h
    rcases hsort :
        (((raw.map swapIfNeeded).filter fun m => pairKey m = key).filter
          fun m => m.level = 0).mergeSort matchKeyLe with _ | ⟨m, rest⟩
    · rw [hsort] at h; simp at h
    · rw [hsort] at h
      exact mergeWalk_line_count (openState m) rest g h
  · obtain ⟨m, _, rfl⟩ := List.mem_map.mp h
    rfl

/-! ## C4 (amended): the two-sided span equation -/

/-- The merge walk preserves equality of the two open spans and, on
single-line matches, every group it closes spans equally on both sides. -/
theorem mergeWalk_spans (ms : List CloneMatch) :
    ∀ st : MergeState,
      st.a_end - st.a_start = st.b_end - st.b_start →
      (∀ m ∈ ms,
        m.left.node.end_line = m.left.node.start_line ∧
          m.right.node.end_line = m.right.node.start_line) →
      ∀ g ∈ mergeWalk st ms, g.lines_b.2 - g.lines_b.1 + 1 = g.line_count := by
  induction ms with
  | nil =>
      intro st hst _ g hg
      simp only [mergeWalk, List.mem_singleton] at hg
      subst hg
      simp only [closeGroup]
      omega
  | cons m rest ih =>
      intro st hst hms g hg
      rw [mergeWalk] at hg
      by_cases hc : m.left.node.start_line = st.a_end + 1 ∧
          m.right.node.start_line = st.b_end + 1
      · simp only [hc, if_true] at hg
        refine ih _ (by simp only; omega) (fun x hx => hms x (by simp [hx])) g hg
      · simp only [hc, if_false, List.mem_cons] at hg
        rcases hg with hg | hg
        · subst hg
          simp only [closeGroup]
          omega
        · have hm := hms m (by simp)
          refine ih (openState m) ?_ (fun x hx => hms x (by simp [hx])) g hg
          simp only [openState]
          omega

/-- C4 (amended): every aggregated group satisfies
`line_count = lines_a.end − lines_a.start + 1`; and when the input matches
are well-formed — every level-0 match joins two single-line nodes and every
higher-level match joins two nodes of equal span (the C4 counterexample
shows gap lines can produce higher-level matches of unequal span) — the
b side also satisfies `lines_b.end − lines_b.start + 1 = line_count`. -/
theorem C4_group_span_invariant (raw : List CloneMatch) (mgt : Int)
    (h0 : ∀ m ∈ raw, m.level = 0 →
      m.left.node.end_line = m.left.node.start_line ∧
        m.right.node.end_line = m.right.node.start_line)
    (hh : ∀ m ∈ raw, 0 < m.level →
      m.left.node.end_line - m.left.node.start_line =
        m.right.node.end_line - m.right.node.start_line) :
    ∀ r ∈ aggregate_clone_matches raw mgt, ∀ g ∈ r.groups,
      g.line_count = g.lines_a.2 - g.lines_a.1 + 1 ∧
        g.lines_b.2 - g.lines_b.1 + 1 = g.line_count := by
  intro r hr g hg
  refine ⟨aggregate_line_count raw mgt r hr g hg, ?_⟩
  obtain ⟨key, hkey⟩ := aggregate_report_groups raw mgt r hr
  rw [hkey] at hg
  have hg1 := List.mem_filter.mp (mem_of_mem_deduplicate hg)
  have hswap0 : ∀ m ∈ raw.map swapIfNeeded, m.level = 0 →
      m.left.node.end_line = m.left.node.start_line ∧
        m.right.node.end_line = m.right.node.start_line := by
    intro m hm hlev
    obtain ⟨m0, hm0, rfl⟩ := List.mem_map.mp hm
    have h00 := h0 m0 hm0
    rw [swapIfNeeded] at hlev ⊢
    by_cases hs : (normalize_file_pair m0.left.file_path m0.right.file_path).2.2
    · simp only [hs, if_true] at hlev ⊢
      exact ⟨(h00 hlev).2, (h00 hlev).1⟩
    · simp only [hs, if_false] at hlev ⊢
      exact h00 hlev
  have hswaph : ∀ m ∈ raw.map swapIfNeeded, 0 < m.level →
      m.left.node.end_line - m.left.node.start_line =
        m.right.node.end_line - m.right.node.start_line := by
    intro m hm hlev
    obtain ⟨m0, hm0, rfl⟩ := List.mem_map.mp hm
    have hhh := hh m0 hm0
    rw [swapIfNeeded] at hlev ⊢
    by_cases hs : (normalize_file_pair m0.left.file_path m0.right.file_path).2.2
    · simp only [hs, if_true] at hlev ⊢
      exact (hhh hlev).symm
    · simp only [hs, if_false] at hlev ⊢
      exact hhh hlev
  rcases List.mem_append.mp hg1.1 with h | h
  · rw [merge_consecutive_matches] at h
    rcases hsort :
        (((raw.map swapIfNeeded).filter fun m => pairKey m = key).filter
          fun m => m.level = 0).mergeSort matchKeyLe with _ | ⟨m, rest⟩
    · rw [hsort] at h; simp at h
    · rw [hsort] at h
      have hmem : ∀ x ∈ m :: rest,
          x.left.node.end_line = x.left.node.start_line ∧
            x.right.node.end_line = x.right.node.start_line := by
        intro x hx
        have hx' : x ∈ ((raw.map swapIfNeeded).filter fun m => pairKey m = key).filter
            fun m => m.level = 0 := by
          rw [← hsort] at hx
          exact (List.mergeSort_perm _ matchKeyLe).mem_iff.mp hx
        have hx2 := List.mem_filter.mp hx'
        have hx3 := List.mem_filter.mp hx2.1
        exact hswap0 x hx3.1 (by simpa using hx2.2)
      have hm := hmem m (by simp)
      refine mergeWalk_spans rest (openState m) ?_
        (fun x hx => hmem x (by simp [hx])) g h
      simp only [openState]
      omega
  · obtain ⟨m, hmH, rfl⟩ := List.mem_map.mp h
    have hm2 := List.mem_filter.mp hmH
    have hm3 := List.mem_filter.mp hm2.1
    have hlev : 0 < m.level := by simpa using hm2.2
    have := hswaph m hm3.1 hlev
    simp only [higher_level_to_group]
    omega

/-- Witness input for C4: one well-formed single-line level-0 match. -/
def c4wMatch : CloneMatch := c8lvl0 1

/-- The group the witness run produces. -/
def c4wGroup : CloneGroup := ⟨"a.py", (1, 1), "b.py", (1, 1), 1, 3⟩

/-- The report the witness run produces. -/
def c4wReport : CloneReport := ⟨"a.py", "b.py", [c4wGroup], 1⟩

set_option maxRecDepth 2000 in
unseal List.merge List.mergeSort in
/-- Witness for C4's amended span invariant at a concrete input. -/
theorem C4_span_witness :
    c4wGroup.line_count = c4wGroup.lines_a.2 - c4wGroup.lines_a.1 + 1 ∧
      c4wGroup.lines_b.2 - c4wGroup.lines_b.1 + 1 = c4wGroup.line_count :=
  C4_group_span_invariant [c4wMatch] 1
    (by decide) (by decide) c4wReport (by decide) c4wGroup (by decide)

/-! ## C7: level-0 coalescing follows the claim's walk -/

/-- From the claim's words: opening a group at a (single-line) level-0
match sets both ranges to that match's lines and the token sum to the
match's token count. -/
def specOpen (m : CloneMatch) : MergeState :=
  { a_start := m.left.node.start_line
    a_end := m.left.node.start_line
    b_start := m.right.node.start_line
    b_end := m.right.node.start_line
    tokens := m.left.node.token_count
    file_a := m.left.file_path
    file_b := m.right.file_path }

/-- From the claim's words: the walk extends the open group iff the next
match starts at `a_end + 1` and `b_end + 1`, advancing *both ends by 1* and
adding the left token count; otherwise it closes the group (emitting
`line_count = a_end − a_start + 1`, `token_count` = the running sum) and
opens a new one. -/
def specWalk (st : MergeState) : List CloneMatch → List CloneGroup
  | [] => [closeGroup st]
  | m :: rest =>
      if m.left.node.start_line = st.a_end + 1 ∧
          m.right.node.start_line = st.b_end + 1 then
        specWalk
          { st with
              a_end := st.a_end + 1
              b_end := st.b_end + 1
              tokens := st.tokens + m.left.node.token_count }
          rest
      else closeGroup st :: specWalk (specOpen m) rest

/-- From the claim's words: sort the level-0 matches by
`(left.start_line, right.start_line)` and walk them with an open group. -/
def merge_consecutive_spec (ms : List CloneMatch) : List CloneGroup :=
  match ms.mergeSort matchKeyLe with
  | [] => []
  | m :: rest => specWalk (specOpen m) rest

theorem mergeWalk_eq_specWalk (ms : List CloneMatch) :
    ∀ st : MergeState,
      (∀ m ∈ ms,
        m.left.node.end_line = m.left.node.start_line ∧
          m.right.node.end_line = m.right.node.start_line) →
      mergeWalk st ms = specWalk st ms := by
  induction ms with
  | nil => intro st _; rfl
  | cons m rest ih =>
      intro st hms
      rw [mergeWalk, specWalk]
      by_cases hc : m.left.node.start_line = st.a_end + 1 ∧
          m.right.node.start_line = st.b_end + 1
      · rw [if_pos hc, if_pos hc, hc.1, hc.2]
        exact ih _ fun x hx => hms x (by simp [hx])
      · rw [if_neg hc, if_neg hc]
        have hm := hms m (by simp)
        have hopen : openState m = specOpen m := by
          simp only [openState, specOpen, hm.1, hm.2]
        rw [hopen]
        exact congrArg _ (ih _ fun x hx => hms x (by simp [hx]))

/-- C7: on level-0 matches (single-line nodes on both sides),
`_merge_consecutive_matches` computes exactly the claim's walk: sort by
`(left.start_line, right.start_line)`, extend the open group iff both next
start lines are the current ends plus one (advancing both ends by 1 and
accumulating `left.token_count`), otherwise close it with
`line_count = a_end − a_start + 1` and `token_count` the accumulated sum,
and open a new group at the match. -/
theorem C7_level0_coalescing (ms : List CloneMatch)
    (hms : ∀ m ∈ ms,
      m.left.node.end_line = m.left.node.start_line ∧
        m.right.node.end_line = m.right.node.start_line) :
    merge_consecutive_matches ms = merge_consecutive_spec ms := by
  rw [merge_consecutive_matches, merge_consecutive_spec]
  have hsorted : ∀ m ∈ ms.mergeSort matchKeyLe,
      m.left.node.end_line = m.left.node.start_line ∧
        m.right.node.end_line = m.right.node.start_line :=
    fun m hm => hms m ((List.mergeSort_perm ms matchKeyLe).mem_iff.mp hm)
  rcases hsort : ms.mergeSort matchKeyLe with _ | ⟨m, rest⟩
  · rfl
  · rw [hsort] at hsorted
    have hm := hsorted m (by simp)
    have hopen : openState m = specOpen m := by
      simp only [openState, specOpen, hm.1, hm.2]
    show mergeWalk (openState m) rest = specWalk (specOpen m) rest
    rw [hopen]
    exact mergeWalk_eq_specWalk rest (specOpen m)
      fun x hx => hsorted x (by simp [hx])

/-- Witness input for C7: two coalescible level-0 matches. -/
def c7wInput : List CloneMatch := [c8lvl0 1, c8lvl0 2]

unseal List.merge List.mergeSort in
/-- Witness for C7 at a concrete list of level-0 matches. -/
theorem C7_coalescing_witness :
    merge_consecutive_matches c7wInput = merge_consecutive_spec c7wInput :=
  C7_level0_coalescing c7wInput (by decide)

/-! ## C8 (amended): what deduplication removes and keeps -/

/-- `dedupGo` never drops an already-kept group. -/
theorem dedupGo_mem_kept :
    ∀ (gs kept : List CloneGroup) (x : CloneGroup), x ∈ kept → x ∈ dedupGo kept gs := by
  intro gs
  induction gs with
  | nil => intro kept x hx; exact hx
  | cons g rest ih =>
      intro kept x hx
      rw [dedupGo]
      by_cases hs : kept.any (fun k => subsumes k g)
      · rw [if_pos hs]; exact ih kept x hx
      · rw [if_neg hs]; exact ih (kept ++ [g]) x (List.mem_append_left _ hx)

/-- Every group dropped by `dedupGo` is subsumed by some group of the final
kept list. -/
theorem dedupGo_dropped :
    ∀ (gs kept : List CloneGroup) (g : CloneGroup), g ∈ gs →
      g ∉ dedupGo kept gs → ∃ k ∈ dedupGo kept gs, subsumes k g = true := by
  intro gs
  induction gs with
  | nil => intro kept g hg; simp at hg
  | cons g' rest ih =>
      intro kept g hg hnot
      rw [dedupGo] at hnot ⊢
      rcases List.mem_cons.mp hg with rfl | hg
      · by_cases hs : kept.any (fun k => subsumes k g)
        · rw [if_pos hs] at hnot ⊢
          obtain ⟨k, hk, hks⟩ := List.any_eq_true.mp hs
          exact ⟨k, dedupGo_mem_kept rest kept k hk, hks⟩
        · rw [if_neg hs] at hnot
          exact absurd (dedupGo_mem_kept rest (kept ++ [g]) g (by simp)) hnot
      · by_cases hs : kept.any (fun k => subsumes k g')
        · rw [if_pos hs] at hnot ⊢
          exact ih kept g hg hnot
        · rw [if_neg hs] at hnot ⊢
          exact ih (kept ++ [g']) g hg hnot

/-- On a size-descending input, `dedupGo` maintains that no kept group is
subsumed by a kept group of strictly larger `line_count`. -/
theorem dedupGo_no_strict :
    ∀ (gs kept : List CloneGroup),
      List.Pairwise (fun a b => b.line_count ≤ a.line_count) gs →
      (∀ x ∈ kept, ∀ y ∈ gs, y.line_count ≤ x.line_count) →
      (∀ g k : CloneGroup, g ∈ kept → k ∈ kept → subsumes k g = true →
        k.line_count ≤ g.line_count) →
      ∀ g k : CloneGroup, g ∈ dedupGo kept gs → k ∈ dedupGo kept gs →
        subsumes k g = true → k.line_count ≤ g.line_count := by
  intro gs
  induction gs with
  | nil => intro kept _ _ hinv g k hgm hkm; exact hinv g k hgm hkm
  | cons g' rest ih =>
      intro kept hpair hkvs hinv g k hgm hkm hsub
      have hhead : ∀ y ∈ rest, y.line_count ≤ g'.line_count :=
        (List.pairwise_cons.mp hpair).1
      have hpair' := (List.pairwise_cons.mp hpair).2
      rw [dedupGo] at hgm hkm
      by_cases hs : kept.any (fun k => subsumes k g')
      · rw [if_pos hs] at hgm hkm
        exact ih kept hpair'
          (fun x hx y hy => hkvs x hx y (List.mem_cons_of_mem g' hy))
          hinv g k hgm hkm hsub
      · rw [if_neg hs] at hgm hkm
        have hfalse : ∀ x ∈ kept, subsumes x g' = false := by
          intro x hx
          by_cases hb : subsumes x g' = true
          · exact absurd (List.any_eq_true.mpr ⟨x, hx, hb⟩) hs
          · simpa using hb
        refine ih (kept ++ [g']) hpair' ?_ ?_ g k hgm hkm hsub
        · intro x hx y hy
          rcases List.mem_append.mp hx with hx | hx
          · exact hkvs x hx y (List.mem_cons_of_mem g' hy)
          · simp only [List.mem_singleton] at hx
            subst hx
            exact hhead y hy
        · intro a b ha hb hab
          rcases List.mem_append.mp ha with ha | ha <;>
            rcases List.mem_append.mp hb with hb | hb
          · exact hinv a b ha hb hab
          · simp only [List.mem_singleton] at hb
            rw [hb]
            exact hkvs a ha g' (by simp)
          · simp only [List.mem_singleton] at ha
            rw [ha] at hab
            exact absurd hab (by simp [hfalse b hb])
          · simp only [List.mem_singleton] at ha hb
            rw [ha, hb]

/-- In `_deduplicate_groups` output no group is subsumed by a kept group of
strictly larger `line_count`. -/
theorem deduplicate_no_strict (gs : List CloneGroup) :
    ∀ g ∈ deduplicate_groups gs, ∀ k ∈ deduplicate_groups gs,
      subsumes k g = true → k.line_count ≤ g.line_count := by
  intro g hg k hk hsub
  rw [deduplicate_groups] at hg hk
  have hg1 := (List.mergeSort_perm _ groupKeyLe).mem_iff.mp hg
  have hk1 := (List.mergeSort_perm _ groupKeyLe).mem_iff.mp hk
  have hsorted : List.Pairwise (fun a b => b.line_count ≤ a.line_count)
      (gs.mergeSort sizeDescLe) := by
    have := @List.sorted_mergeSort CloneGroup sizeDescLe
      (fun a b c hab hbc => by
        simp only [sizeDescLe, decide_eq_true_eq] at *
        omega)
      (fun a b => by
        simp only [sizeDescLe, Bool.or_eq_true, decide_eq_true_eq]
        omega)
      gs
    exact this.imp fun h => by
      simpa only [sizeDescLe, decide_eq_true_eq] using h
  exact dedupGo_no_strict (gs.mergeSort sizeDescLe) [] hsorted
    (by simp) (by simp) g k hg1 hk1 hsub

set_option maxRecDepth 4000 in
unseal List.merge List.mergeSort in
/-- C8 (amended): a group removed by subsumption deduplication is always
contained — `K.lines_a ⊇ G.lines_a` and `K.lines_b ⊇ G.lines_b`, same file
pair — in some kept group (the C8 counterexample shows the converse can
fail: a group contained in an equal-`line_count` group that is processed
later survives); after aggregation no kept group is strictly contained on
both sides (properly on each side) in another kept group of the same file
pair; and §8 scenario 3 — a coalesced `(1,4)↔(1,4)` run of four level-0
matches plus a level-2 `(1,4)↔(1,4)` match — yields exactly one group. -/
theorem C8_dedup_amended :
    (∀ (gs : List CloneGroup) (g : CloneGroup), g ∈ gs →
        g ∉ deduplicate_groups gs →
        ∃ k ∈ deduplicate_groups gs, subsumes k g = true) ∧
      (∀ (raw : List CloneMatch) (mgt : Int),
        ∀ r ∈ aggregate_clone_matches raw mgt,
          ∀ g ∈ r.groups, ∀ k ∈ r.groups,
            g.file_a = k.file_a → g.file_b = k.file_b →
            k.lines_a.1 ≤ g.lines_a.1 → g.lines_a.2 ≤ k.lines_a.2 →
            k.lines_b.1 ≤ g.lines_b.1 → g.lines_b.2 ≤ k.lines_b.2 →
            (k.lines_a.1 < g.lines_a.1 ∨ g.lines_a.2 < k.lines_a.2) →
            (k.lines_b.1 < g.lines_b.1 ∨ g.lines_b.2 < k.lines_b.2) →
            False) ∧
      aggregate_clone_matches c8ExampleMatches 10 =
        [{ file_a := "a.py"
           file_b := "b.py"
           groups :=
             [{ file_a := "a.py"
                lines_a := (1, 4)
                file_b := "b.py"
                lines_b := (1, 4)
                line_count := 4
                token_count := 12 }]
           total_cloned_lines := 4 }] := by
  refine ⟨?_, ?_, by decide⟩
  · intro gs g hg hnot
    rw [deduplicate_groups] at hnot ⊢
    have hg1 : g ∈ gs.mergeSort sizeDescLe :=
      (List.mergeSort_perm gs sizeDescLe).mem_iff.mpr hg
    have hnot1 : g ∉ dedupGo [] (gs.mergeSort sizeDescLe) := fun hmem =>
      hnot ((List.mergeSort_perm _ groupKeyLe).mem_iff.mpr hmem)
    obtain ⟨k, hk, hks⟩ := dedupGo_dropped (gs.mergeSort sizeDescLe) [] g hg1 hnot1
    exact ⟨k, (List.mergeSort_perm _ groupKeyLe).mem_iff.mpr hk, hks⟩
  · intro raw mgt r hr g hg k hk hfa hfb ha1 ha2 hb1 hb2 hstrict_a _
    obtain ⟨key, hkey⟩ := aggregate_report_groups raw mgt r hr
    have hlc_g := aggregate_line_count raw mgt r hr g hg
    have hlc_k := aggregate_line_count raw mgt r hr k hk
    rw [hkey] at hg hk
    have hsub : subsumes k g = true := by
      unfold subsumes
      rw [Bool.and_eq_true, Bool.and_eq_true, Bool.and_eq_true, Bool.and_eq_true,
        Bool.and_eq_true]
      exact ⟨⟨⟨⟨⟨decide_eq_true hfa, decide_eq_true hfb⟩, decide_eq_true ha1⟩,
        decide_eq_true ha2⟩, decide_eq_true hb1⟩, decide_eq_true hb2⟩
    have hle := deduplicate_no_strict _ g hg k hk hsub
    omega

/-! ## C9: idempotence of the suppression filter -/

/-- A cache is faithful when every entry records exactly what the injected
(deterministic) `read_source` returns for its key. -/
def CacheOK (readFn : String → Option String) (c : Cache) : Prop :=
  ∀ p ∈ c, p.2 = readFn p.1

theorem cacheLookup_ok {readFn : String → Option String} {c : Cache}
    {fp : String} {v : Option String} (h : CacheOK readFn c)
    (hl : cacheLookup c fp = some v) : v = readFn fp := by
  induction c with
  | nil => simp [cacheLookup] at hl
  | cons p rest ih =>
      rw [cacheLookup] at hl
      by_cases hk : p.1 = fp
      · rw [if_pos hk] at hl
        have := h p (by simp)
        rw [← hk, ← Option.some_inj.mp hl]
        exact this
      · rw [if_neg hk] at hl
        exact ih (fun q hq => h q (List.mem_cons_of_mem p hq)) hl

theorem readCached_fst {readFn : String → Option String} {c : Cache}
    (fp : String) (h : CacheOK readFn c) :
    (readCached readFn c fp).1 = readFn fp := by
  rw [readCached]
  rcases hl : cacheLookup c fp with _ | v
  · rfl
  · exact cacheLookup_ok h hl

theorem readCached_ok {readFn : String → Option String} {c : Cache}
    (fp : String) (h : CacheOK readFn c) :
    CacheOK readFn (readCached readFn c fp).2 := by
  rw [readCached]
  rcases hl : cacheLookup c fp with _ | v
  · intro p hp
    rcases List.mem_append.mp hp with hp | hp
    · exact h p hp
    · simp only [List.mem_singleton] at hp
      rw [hp]
  · exact h

/-- The stateless value of `_group_matches` under a deterministic
`read_source`: read both sides directly. -/
def group_matches_pure (fnmatchB : String → String → Bool)
    (splitLines : String → List String) (readFn : String → Option String)
    (patterns : List String) (g : CloneGroup) : Bool :=
  if sideMatches fnmatchB splitLines patterns (readFn g.file_a) g.lines_a then true
  else sideMatches fnmatchB splitLines patterns (readFn g.file_b) g.lines_b

theorem group_matches_ok (fnmatchB : String → String → Bool)
    (splitLines : String → List String) (readFn : String → Option String)
    (patterns : List String) (g : CloneGroup) {c : Cache}
    (h : CacheOK readFn c) :
    (group_matches fnmatchB splitLines readFn patterns g c).1 =
        group_matches_pure fnmatchB splitLines readFn patterns g ∧
      CacheOK readFn (group_matches fnmatchB splitLines readFn patterns g c).2 := by
  have h2 : CacheOK readFn (readCached readFn c g.file_a).2 :=
    readCached_ok g.file_a h
  rw [group_matches, group_matches_pure]
  rw [readCached_fst g.file_a h]
  by_cases hA : sideMatches fnmatchB splitLines patterns (readFn g.file_a) g.lines_a
  · rw [if_pos hA, if_pos hA]
    exact ⟨rfl, h2⟩
  · rw [if_neg hA, if_neg hA]
    rw [readCached_fst g.file_b h2]
    exact ⟨rfl, readCached_ok g.file_b h2⟩

theorem stage1Groups_ok (fnmatchB : String → String → Bool)
    (splitLines : String → List String) (readFn : String → Option String)
    (patterns : List String) :
    ∀ (gs : List CloneGroup) (st : Stage1State), CacheOK readFn st.cache →
      (stage1Groups fnmatchB splitLines readFn patterns gs st).1 =
          gs.filter (fun g => !group_matches_pure fnmatchB splitLines readFn patterns g) ∧
        CacheOK readFn (stage1Groups fnmatchB splitLines readFn patterns gs st).2.cache ∧
        ((∀ g ∈ gs, group_matches_pure fnmatchB splitLines readFn patterns g = false) →
          (stage1Groups fnmatchB splitLines readFn patterns gs st).2.suppressed =
            st.suppressed) := by
  intro gs
  induction gs with
  | nil => intro st h; exact ⟨rfl, h, fun _ => rfl⟩
  | cons g rest ih =>
      intro st h
      obtain ⟨hfst, hcok⟩ :=
        group_matches_ok fnmatchB splitLines readFn patterns g h
      rw [stage1Groups]
      by_cases hm :
        (group_matches fnmatchB splitLines readFn patterns g st.cache).1 = true
      · rw [if_pos hm]
        have hpure : group_matches_pure fnmatchB splitLines readFn patterns g = true := by
          rw [← hfst]; exact hm
        obtain ⟨ih1, ih2, _⟩ :=
          ih ⟨(group_matches fnmatchB splitLines readFn patterns g st.cache).2,
            locInsert (locInsert st.suppressed (g.file_a, g.lines_a))
              (g.file_b, g.lines_b)⟩ hcok
        refine ⟨?_, ih2, ?_⟩
        · rw [ih1, List.filter_cons_of_neg (by simp [hpure])]
        · intro hall
          exact absurd hpure (by simp [hall g (by simp)])
      · rw [if_neg hm]
        have hpure : group_matches_pure fnmatchB splitLines readFn patterns g = false := by
          rw [← hfst]; simpa using hm
        obtain ⟨ih1, ih2, ih3⟩ :=
          ih ⟨(group_matches fnmatchB splitLines readFn patterns g st.cache).2,
            st.suppressed⟩ hcok
        refine ⟨?_, ih2, ?_⟩
        · rw [List.filter_cons_of_pos (by simp [hpure])]
          simp only at ih1 ⊢
          rw [ih1]
        · intro hall
          exact ih3 fun x hx => hall x (by simp [hx])

theorem stage1Reports_ok (fnmatchB : String → String → Bool)
    (splitLines : String → List String) (readFn : String → Option String)
    (patterns : List String) :
    ∀ (rs : List CloneReport) (st : Stage1State), CacheOK readFn st.cache →
      (stage1Reports fnmatchB splitLines readFn patterns rs st).1 =
          filter_groups rs
            (fun g => !group_matches_pure fnmatchB splitLines readFn patterns g) ∧
        CacheOK readFn
          (stage1Reports fnmatchB splitLines readFn patterns rs st).2.cache ∧
        ((∀ r ∈ rs, ∀ g ∈ r.groups,
            group_matches_pure fnmatchB splitLines readFn patterns g = false) →
          (stage1Reports fnmatchB splitLines readFn patterns rs st).2.suppressed =
            st.suppressed) := by
  intro rs
  induction rs with
  | nil => intro st h; exact ⟨rfl, h, fun _ => rfl⟩
  | cons r rest ih =>
      intro st h
      obtain ⟨hg1, hg2, hg3⟩ :=
        stage1Groups_ok fnmatchB splitLines readFn patterns r.groups st h
      obtain ⟨ih1, ih2, ih3⟩ := ih _ hg2
      rw [stage1Reports]
      by_cases hempty : (stage1Groups fnmatchB splitLines readFn patterns
          r.groups st).1 = []
      · rw [if_pos hempty]
        have hempty' : r.groups.filter
            (fun g => !group_matches_pure fnmatchB splitLines readFn patterns g) = [] := by
          rw [← hg1]; exact hempty
        refine ⟨?_, ih2, ?_⟩
        · rw [ih1]
          simp only [filter_groups, List.filterMap_cons, hempty', if_pos]
        · intro hall
          rw [ih3 fun x hx g hg => hall x (by simp [hx]) g hg]
          exact hg3 fun g hg => hall r (by simp) g hg
      · rw [if_neg hempty]
        have hempty' : ¬(r.groups.filter
            (fun g => !group_matches_pure fnmatchB splitLines readFn patterns g) = []) := by
          rw [← hg1]; exact hempty
        refine ⟨?_, ih2, ?_⟩
        · simp only [filter_groups, List.filterMap_cons]
          rw [if_neg hempty']
          simp only at ih1 ⊢
          rw [hg1, ih1]
          rfl
        · intro hall
          simp only
          rw [ih3 fun x hx g hg => hall x (by simp [hx]) g hg]
          exact hg3 fun g hg => hall r (by simp) g hg

theorem filter_groups_props (rs : List CloneReport) (keep : CloneGroup → Bool) :
    ∀ r' ∈ filter_groups rs keep,
      r'.groups ≠ [] ∧
        r'.total_cloned_lines = (r'.groups.map (·.line_count)).sum ∧
        ∀ g ∈ r'.groups, keep g = true ∧ ∃ r ∈ rs, g ∈ r.groups := by
  intro r' hr'
  simp only [filter_groups, List.mem_filterMap] at hr'
  obtain ⟨r, hr, hfr⟩ := hr'
  by_cases hempty : r.groups.filter keep = []
  · rw [if_pos hempty] at hfr
    exact absurd hfr (by simp)
  · rw [if_neg hempty] at hfr
    rw [← Option.some_inj.mp hfr]
    refine ⟨hempty, rfl, ?_⟩
    intro g hg
    have := List.mem_filter.mp hg
    exact ⟨this.2, r, hr, this.1⟩

theorem filter_groups_id (rs : List CloneReport) (keep : CloneGroup → Bool)
    (h : ∀ r ∈ rs, r.groups ≠ [] ∧
      r.total_cloned_lines = (r.groups.map (·.line_count)).sum ∧
      ∀ g ∈ r.groups, keep g = true) :
    filter_groups rs keep = rs := by
  induction rs with
  | nil => rfl
  | cons r rest ih =>
      obtain ⟨hne, htot, hall⟩ := h r (by simp)
      have hfilter : r.groups.filter keep = r.groups :=
        List.filter_eq_self.mpr hall
      have hrep :
          ({ file_a := r.file_a
             file_b := r.file_b
             groups := r.groups
             total_cloned_lines := (r.groups.map (·.line_count)).sum } : CloneReport) = r := by
        cases r with
        | mk fa fb gs tot =>
            simp only at htot ⊢
            rw [htot]
      have hrec := ih fun x hx => h x (by simp [hx])
      simp only [filter_groups, List.filterMap_cons, hfilter] at hrec ⊢
      rw [if_neg hne]
      simp only [hrep]
      rw [hrec]

/-- `_location_overlaps` against an empty suppressed set is false. -/
theorem location_overlaps_nil (loc : Location) : location_overlaps loc [] = false := rfl

/-- C9: with a non-empty pattern tuple and a fixed deterministic
`read_source` (and arbitrary `fnmatch` and `splitlines` behaviour), the
two-stage suppression filter is idempotent:
`filter(filter(r, P), P) = filter(r, P)`. -/
theorem C9_filter_idempotent (fnmatchB : String → String → Bool)
    (splitLines : String → List String) (readFn : String → Option String)
    (reports : List CloneReport) (patterns : List String)
    (hp : patterns ≠ []) :
    filter_reports fnmatchB splitLines readFn
        (filter_reports fnmatchB splitLines readFn reports patterns) patterns =
      filter_reports fnmatchB splitLines readFn reports patterns := by
  have hcache0 : CacheOK readFn ([] : Cache) :=
    fun p hmem => absurd hmem (List.not_mem_nil p)
  have run_eq : ∀ rs : List CloneReport,
      filter_reports fnmatchB splitLines readFn rs patterns =
        (sibling_stage
          (pattern_stage fnmatchB splitLines readFn patterns rs ⟨[], []⟩).1
          (pattern_stage fnmatchB splitLines readFn patterns rs ⟨[], []⟩).2).1 :=
    fun rs => by rw [filter_reports, if_neg hp]
  have hps_fst : ∀ rs : List CloneReport,
      (pattern_stage fnmatchB splitLines readFn patterns rs ⟨[], []⟩).1 =
        filter_groups rs
          (fun g => !group_matches_pure fnmatchB splitLines readFn patterns g) :=
    fun rs => (stage1Reports_ok fnmatchB splitLines readFn patterns rs ⟨[], []⟩ hcache0).1
  have hps_supp : ∀ rs : List CloneReport,
      (∀ r ∈ rs, ∀ g ∈ r.groups,
        group_matches_pure fnmatchB splitLines readFn patterns g = false) →
      (pattern_stage fnmatchB splitLines readFn patterns rs
        ⟨[], []⟩).2.suppressed_locations = [] := by
    intro rs hall
    show ((stage1Reports fnmatchB splitLines readFn patterns rs
      ⟨[], []⟩).2.suppressed).foldl locInsert [] = []
    rw [(stage1Reports_ok fnmatchB splitLines readFn patterns rs ⟨[], []⟩
      hcache0).2.2 hall]
    rfl
  rw [run_eq reports, run_eq]
  set R1 := (sibling_stage
      (pattern_stage fnmatchB splitLines readFn patterns reports ⟨[], []⟩).1
      (pattern_stage fnmatchB splitLines readFn patterns reports ⟨[], []⟩).2).1
    with hR1def
  have hR1shape : ∀ r ∈ R1, r.groups ≠ [] ∧
      r.total_cloned_lines = (r.groups.map (·.line_count)).sum ∧
      ∀ g ∈ r.groups,
        (!group_matches_pure fnmatchB splitLines readFn patterns g) = true := by
    intro r hr
    rw [hR1def] at hr
    simp only [sibling_stage] at hr
    have h1 := filter_groups_props _ _ r hr
    refine ⟨h1.1, h1.2.1, ?_⟩
    intro g hg
    obtain ⟨-, rA, hrA, hgA⟩ := h1.2.2 g hg
    rw [hps_fst reports] at hrA
    exact ((filter_groups_props reports _ rA hrA).2.2 g hgA).1
  have hR1pure : ∀ r ∈ R1, ∀ g ∈ r.groups,
      group_matches_pure fnmatchB splitLines readFn patterns g = false := by
    intro r hr g hg
    have := (hR1shape r hr).2.2 g hg
    simpa using this
  have hfix : (pattern_stage fnmatchB splitLines readFn patterns R1 ⟨[], []⟩).1 = R1 := by
    rw [hps_fst R1]
    exact filter_groups_id R1 _ hR1shape
  have hsupp : (pattern_stage fnmatchB splitLines readFn patterns R1
      ⟨[], []⟩).2.suppressed_locations = [] :=
    hps_supp R1 hR1pure
  simp only [sibling_stage]
  rw [hfix, hsupp]
  exact filter_groups_id R1 _ fun r hr =>
    ⟨(hR1shape r hr).1, (hR1shape r hr).2.1, fun g hg => rfl⟩

/-- Witness for C9 at concrete functions, patterns and reports. -/
theorem C9_idempotent_witness :
    filter_reports (fun _ _ => true) (fun s => [s]) (fun _ => none)
        (filter_reports (fun _ _ => true) (fun s => [s]) (fun _ => none)
          [c4wReport] ["*"]) ["*"] =
      filter_reports (fun _ _ => true) (fun s => [s]) (fun _ => none)
        [c4wReport] ["*"] :=
  C9_filter_idempotent (fun _ _ => true) (fun s => [s]) (fun _ => none)
    [c4wReport] ["*"] (by decide)

/-! ## C10: total extraction with silent truncation -/

/-- Two booleans agreeing as propositions are equal. -/
theorem bool_ext {x y : Bool} (h : x = true ↔ y = true) : x = y := by
  cases x <;> cases y <;> simp_all

/-- Python's `l[a:b]` as a filter on positions, for nonnegative bounds. -/
theorem take_drop_eq_enum_filter {α : Type} (l : List α) (a b : Nat) :
    (l.take b).drop a =
      ((l.enum.filter fun p => decide (a ≤ p.1) && decide (p.1 < b)).map (·.2)) := by
  induction l generalizing a b with
  | nil => simp
  | cons x t ih =>
      rw [List.enum_cons']
      rw [List.filter_cons, List.filter_map]
      have hcomp :
          ((fun p : Nat × α => decide (a ≤ p.1) && decide (p.1 < b)) ∘
            Prod.map (fun i => i + 1) id) =
          fun p : Nat × α => decide (a ≤ p.1 + 1) && decide (p.1 + 1 < b) := by
        funext p
        rfl
      rw [hcomp]
      have hf : ((fun x : Nat × α => x.2) ∘ Prod.map (fun i => i + 1) id) =
          (fun x : Nat × α => x.2) := by
        funext p
        rfl
      rcases a with _ | a' <;> rcases b with _ | b'
      · simp
      · have hcond : (decide (0 ≤ (0 : Nat)) && decide ((0 : Nat) < b' + 1)) = true := by
          simp
        rw [hcond, if_pos rfl]
        simp only [List.take_succ_cons, List.drop_zero, List.map_cons]
        have hih := ih 0 b'
        rw [List.drop_zero] at hih
        rw [hih, List.map_map, hf]
        congr 1
        refine congrArg _ (List.filter_congr ?_)
        intro p _
        apply bool_ext
        simp only [Bool.and_eq_true, decide_eq_true_eq]
        omega
      · simp
      · have hcond :
            (decide (a' + 1 ≤ (0 : Nat)) && decide ((0 : Nat) < b' + 1)) = false := by
          simp
        rw [hcond, if_neg (by simp)]
        simp only [List.take_succ_cons, List.drop_succ_cons]
        rw [ih a' b', List.map_map, hf]
        congr 1
        apply List.filter_congr
        intro p _
        apply bool_ext
        simp only [Bool.and_eq_true, decide_eq_true_eq]
        omega

/-- From the claim's words: the lines of the file that exist and whose
1-based index lies within `[lo, hi]` — nothing is read past the end of the
file. -/
def specExtract (lines : List String) (lo hi : Int) : List String :=
  (lines.enum.filter fun p =>
    decide (lo ≤ (p.1 : Int) + 1) && decide ((p.1 : Int) + 1 ≤ hi)).map (·.2)

/-- C10: stage-1 extraction (`_extract_lines` with the one-line context
expansion clamped at line 1) is total and silently truncates past the end
of the file: for any `splitlines` behaviour and any range with a
nonnegative end, it returns exactly the *existing* lines with 1-based
indices in `[max 1 (start−1), end]` — possibly none — and in particular
never more lines than the file has, so the pattern stage never fails on
ranges exceeding the file's length. -/
theorem C10_extraction_truncation (splitLines : String → List String)
    (source : String) (s e : Int) (he : 0 ≤ e) :
    extract_lines splitLines source (s, e) 1 =
        specExtract (splitLines source) (max 1 (s - 1)) e ∧
      (extract_lines splitLines source (s, e) 1).length ≤
        (splitLines source).length := by
  have hmain : extract_lines splitLines source (s, e) 1 =
      specExtract (splitLines source) (max 1 (s - 1)) e := by
    rw [extract_lines, pySlice, specExtract]
    rw [take_drop_eq_enum_filter]
    congr 1
    apply List.filter_congr
    intro p hp
    have hlt : p.1 < (splitLines source).length := List.fst_lt_of_mem_enum hp
    apply bool_ext
    simp only [Bool.and_eq_true, decide_eq_true_eq, pyIndex]
    split_ifs <;> omega
  refine ⟨hmain, ?_⟩
  rw [hmain, specExtract, List.length_map]
  calc ((splitLines source).enum.filter _).length
      ≤ (splitLines source).enum.length := List.length_filter_le _ _
    _ = (splitLines source).length := List.enum_length

/-- Witness for C10 at a concrete source and range reaching past the end
of the two-line file. -/
theorem C10_extraction_witness :
    extract_lines (fun src => [src, src]) "x" (2, 9) 1 =
        specExtract ["x", "x"] (max 1 (2 - 1)) 9 ∧
      (extract_lines (fun src => [src, src]) "x" (2, 9) 1).length ≤
        (["x", "x"] : List String).length :=
  C10_extraction_truncation (fun src => [src, src]) "x" 2 9 (by decide)

end Cpitd
